/-
Verification of the chunked concurrent fetch engine and statistics pipeline
of the s3bench repository, via a shallow embedding in Lean 4.

Machine `int64` values are modelled as `Int`; `float64` arithmetic is
idealised as exact rational arithmetic over `ℚ`, except at conversions back
to integer types (Go's `time.Duration(...)` on a float), which are modelled
exactly as Go's truncation toward zero.
-/
import Mathlib

set_option linter.unusedVariables false

/-! ## Range planner (`planChunks`, download.go) -/

/-- `ChunkSpec` describes a single byte-range segment of the object.
Mirrors the Go struct: `Index int; RangeStart, RangeEnd, Size int64`
(`RangeEnd` inclusive). The index only ever counts up from 0, so it is
modelled as `Nat`. -/
structure ChunkSpec where
  index : Nat
  rangeStart : Int
  rangeEnd : Int
  size : Int
deriving Repr, DecidableEq

/-- The loop body of `planChunks`: starting from `offset` (loop variable) and
`index`, emit one chunk per iteration while `offset < objectSize`, stepping by
`chunkSize`.  The Go loop guard is only `offset < objectSize`; the extra
`0 < chunkSize` conjunct is the caller precondition under which the loop
terminates (it does not change the value whenever `0 < chunkSize`, and the
fuel-indexed `planChunksFuel` below models the raw loop without it). -/
def planChunksAux (objectSize chunkSize offset : Int) (index : Nat) : List ChunkSpec :=
  if h : offset < objectSize ∧ 0 < chunkSize then
    let e : Int :=
      if objectSize ≤ offset + chunkSize - 1 then objectSize - 1 else offset + chunkSize - 1
    ⟨index, offset, e, e - offset + 1⟩ ::
      planChunksAux objectSize chunkSize (offset + chunkSize) (index + 1)
  else
    []
termination_by (objectSize - offset).toNat
decreasing_by omega

/-- `planChunks` divides `objectSize` into chunks of at most `chunkSize` bytes. -/
def planChunks (objectSize chunkSize : Int) : List ChunkSpec :=
  planChunksAux objectSize chunkSize 0 0

/-- The raw Go loop of `planChunks`, instrumented with fuel: one unit of fuel
per iteration, `none` when the fuel runs out before the loop exits.  The loop
guard is exactly the source's `offset < objectSize`. -/
def planChunksFuel (fuel : Nat) (objectSize chunkSize offset : Int) (index : Nat) :
    Option (List ChunkSpec) :=
  match fuel with
  | 0 => none
  | fuel + 1 =>
    if offset < objectSize then
      let e : Int :=
        if objectSize ≤ offset + chunkSize - 1 then objectSize - 1 else offset + chunkSize - 1
      (planChunksFuel fuel objectSize chunkSize (offset + chunkSize) (index + 1)).map
        (fun rest => ⟨index, offset, e, e - offset + 1⟩ :: rest)
    else
      some []

/-- Sum of the `size` fields of a chunk plan. -/
def sumSizes (l : List ChunkSpec) : Int :=
  (l.map ChunkSpec.size).sum

/-- Structural invariant tying each emitted chunk to the loop state that
produced it: the chunk at loop state `(offset, idx)` starts at `offset`,
carries index `idx`, ends at `min (offset+chunkSize-1) (objectSize-1)`, and
the tail satisfies the invariant at the next loop state. -/
def chunksOK (objectSize chunkSize : Int) : Int → Nat → List ChunkSpec → Prop
  | offset, _, [] => objectSize ≤ offset
  | offset, idx, c :: rest =>
      offset < objectSize ∧
      c.index = idx ∧
      c.rangeStart = offset ∧
      c.rangeEnd =
        (if objectSize ≤ offset + chunkSize - 1 then objectSize - 1
         else offset + chunkSize - 1) ∧
      c.size = c.rangeEnd - c.rangeStart + 1 ∧
      chunksOK objectSize chunkSize (offset + chunkSize) (idx + 1) rest

theorem chunksOK_planChunksAux (objectSize chunkSize : Int) (hcs : 0 < chunkSize) :
    ∀ offset idx, chunksOK objectSize chunkSize offset idx
      (planChunksAux objectSize chunkSize offset idx) := by
  intro offset idx
  induction offset, idx using planChunksAux.induct objectSize chunkSize with
  | case1 offset idx h ih =>
    rw [planChunksAux, dif_pos h]
    exact ⟨h.1, rfl, rfl, rfl, rfl, ih⟩
  | case2 offset idx h =>
    rw [planChunksAux, dif_neg h]
    show objectSize ≤ offset
    omega

theorem chunksOK_index (objectSize chunkSize : Int) :
    ∀ (l : List ChunkSpec) (offset : Int) (idx : Nat),
      chunksOK objectSize chunkSize offset idx l →
      ∀ i (h : i < l.length), l[i].index = idx + i := by
  intro l
  induction l with
  | nil => intro _ _ _ i h; simp at h
  | cons c rest ih =>
    intro offset idx hok i h
    obtain ⟨_, hidx, _, _, _, hrest⟩ := hok
    match i with
    | 0 => simpa using hidx
    | i + 1 =>
      have hi : i < rest.length := by simpa using h
      have := ih (offset + chunkSize) (idx + 1) hrest i hi
      show rest[i].index = idx + (i + 1)
      omega

theorem chunksOK_sum (objectSize chunkSize : Int) (hcs : 0 < chunkSize) :
    ∀ (l : List ChunkSpec) (offset : Int) (idx : Nat),
      chunksOK objectSize chunkSize offset idx l →
      sumSizes l = max (objectSize - offset) 0 := by
  intro l
  induction l with
  | nil =>
    intro offset idx hok
    simp only [chunksOK] at hok
    simp only [sumSizes, List.map_nil, List.sum_nil]
    omega
  | cons c rest ih =>
    intro offset idx hok
    obtain ⟨hlt, _, hstart, hend, hsize, hrest⟩ := hok
    have hr := ih (offset + chunkSize) (idx + 1) hrest
    simp only [sumSizes, List.map_cons, List.sum_cons] at *
    split at hend <;> omega

theorem chunksOK_head (objectSize chunkSize : Int) :
    ∀ (l : List ChunkSpec) (offset : Int) (idx : Nat),
      chunksOK objectSize chunkSize offset idx l →
      ∀ h : 0 < l.length, l[0].rangeStart = offset := by
  intro l
  match l with
  | [] => intro _ _ _ h; simp at h
  | c :: rest => intro offset idx hok h; exact hok.2.2.1

theorem chunksOK_chain (objectSize chunkSize : Int) :
    ∀ (l : List ChunkSpec) (offset : Int) (idx : Nat),
      chunksOK objectSize chunkSize offset idx l →
      ∀ i (h : i < l.length) (h2 : i + 1 < l.length),
        l[i + 1].rangeStart = l[i].rangeEnd + 1 := by
  intro l
  induction l with
  | nil => intro _ _ _ i h; simp at h
  | cons c rest ih =>
    intro offset idx hok i h h2
    obtain ⟨hlt, _, hstart, hend, hsize, hrest⟩ := hok
    match i with
    | 0 =>
      match rest, hrest with
      | c' :: rest', hrest =>
        obtain ⟨hlt', _, hstart', _, _, _⟩ := hrest
        show c'.rangeStart = c.rangeEnd + 1
        rw [hstart', hend]
        split <;> omega
    | i + 1 =>
      have hi : i < rest.length := by simpa using h
      have hi2 : i + 1 < rest.length := by simpa using h2
      have := ih (offset + chunkSize) (idx + 1) hrest i hi hi2
      show rest[i + 1].rangeStart = rest[i].rangeEnd + 1
      exact this

theorem chunksOK_last (objectSize chunkSize : Int) :
    ∀ (l : List ChunkSpec) (offset : Int) (idx : Nat),
      chunksOK objectSize chunkSize offset idx l →
      ∀ h : l ≠ [], (l.getLast h).rangeEnd = objectSize - 1 := by
  intro l
  induction l with
  | nil => intro _ _ _ h; exact absurd rfl h
  | cons c rest ih =>
    intro offset idx hok hne
    obtain ⟨hlt, _, hstart, hend, hsize, hrest⟩ := hok
    match rest, hrest with
    | [], hrest =>
      simp only [chunksOK] at hrest
      simp only [List.getLast_singleton]
      rw [hend]
      split <;> omega
    | c' :: rest', hrest =>
      rw [List.getLast_cons (by simp)]
      exact ih (offset + chunkSize) (idx + 1) hrest (by simp)

theorem chunksOK_sizes (objectSize chunkSize : Int) (hcs : 0 < chunkSize) :
    ∀ (l : List ChunkSpec) (offset : Int) (idx : Nat),
      chunksOK objectSize chunkSize offset idx l →
      ∀ c ∈ l, 1 ≤ c.size ∧ c.size ≤ chunkSize := by
  intro l
  induction l with
  | nil => intro _ _ _ c hc; simp at hc
  | cons c0 rest ih =>
    intro offset idx hok c hc
    obtain ⟨hlt, _, hstart, hend, hsize, hrest⟩ := hok
    rcases List.mem_cons.mp hc with h | h
    · subst h
      rw [hsize, hstart, hend]
      split <;> omega
    · exact ih (offset + chunkSize) (idx + 1) hrest c h

theorem chunksOK_nonfinal_size (objectSize chunkSize : Int) :
    ∀ (l : List ChunkSpec) (offset : Int) (idx : Nat),
      chunksOK objectSize chunkSize offset idx l →
      ∀ i (h : i < l.length), i + 1 < l.length → l[i].size = chunkSize := by
  intro l
  induction l with
  | nil => intro _ _ _ i h; simp at h
  | cons c rest ih =>
    intro offset idx hok i h h2
    obtain ⟨hlt, _, hstart, hend, hsize, hrest⟩ := hok
    match i with
    | 0 =>
      match rest, hrest with
      | c' :: rest', hrest =>
        obtain ⟨hlt', _⟩ := hrest
        show c.size = chunkSize
        rw [hsize, hstart, hend]
        split <;> omega
    | i + 1 =>
      have hi : i < rest.length := by simpa using h
      have hi2 : i + 1 < rest.length := by simpa using h2
      have := ih (offset + chunkSize) (idx + 1) hrest i hi hi2
      show rest[i].size = chunkSize
      exact this

theorem planChunks_zero (chunkSize : Int) : planChunks 0 chunkSize = [] := by
  rw [planChunks, planChunksAux]
  exact dif_neg (by omega)

theorem planChunksFuel_some (objectSize chunkSize : Int) (hcs : 0 < chunkSize) :
    ∀ (fuel : Nat) (offset : Int) (idx : Nat), (objectSize - offset).toNat < fuel →
      planChunksFuel fuel objectSize chunkSize offset idx =
        some (planChunksAux objectSize chunkSize offset idx) := by
  intro fuel
  induction fuel with
  | zero => intro offset idx h; omega
  | succ fuel ih =>
    intro offset idx h
    rw [planChunksFuel]
    by_cases hlt : offset < objectSize
    · rw [if_pos hlt, ih (offset + chunkSize) (idx + 1) (by omega)]
      conv_rhs => rw [planChunksAux, dif_pos ⟨hlt, hcs⟩]
      rfl
    · rw [if_neg hlt]
      conv_rhs => rw [planChunksAux, dif_neg (fun hc => hlt hc.1)]

theorem planChunksFuel_none (objectSize chunkSize : Int) (hcs : chunkSize ≤ 0) :
    ∀ (fuel : Nat) (offset : Int) (idx : Nat), offset < objectSize →
      planChunksFuel fuel objectSize chunkSize offset idx = none := by
  intro fuel
  induction fuel with
  | zero => intro offset idx h; rfl
  | succ fuel ih =>
    intro offset idx h
    rw [planChunksFuel, if_pos h, ih (offset + chunkSize) (idx + 1) (by omega)]
    rfl

theorem planChunks_ten_three :
    planChunks 10 3 = [⟨0, 0, 2, 3⟩, ⟨1, 3, 5, 3⟩, ⟨2, 6, 8, 3⟩, ⟨3, 9, 9, 1⟩] := by
  have h := planChunksFuel_some 10 3 (by norm_num) 11 0 0 (by norm_num)
  have h2 : planChunksFuel 11 10 3 0 0 =
      some [⟨0, 0, 2, 3⟩, ⟨1, 3, 5, 3⟩, ⟨2, 6, 8, 3⟩, ⟨3, 9, 9, 1⟩] := by decide
  rw [planChunks]
  rw [h] at h2
  exact Option.some_inj.mp h2

/-- C1: for every `objectSize ≥ 0` and `chunkSize > 0`, `planChunks` returns an
ordered sequence of descriptors that exactly partitions `[0, objectSize)`:
indices are `0..N-1` contiguous, the first range starts at `0`, the last range
ends at `objectSize - 1`, consecutive ranges are adjacent
(`end[i] + 1 = start[i+1]`), each size is between `1` and `chunkSize` with
every non-final range of size exactly `chunkSize` (so only the final range may
be shorter), the sizes sum to `objectSize`, `objectSize = 0` yields the empty
sequence, and concretely
`planChunks 10 3 = [{0,0,2,3},{1,3,5,3},{2,6,8,3},{3,9,9,1}]`. -/
theorem planChunks_partition (objectSize chunkSize : Int)
    (hos : 0 ≤ objectSize) (hcs : 0 < chunkSize) :
    (∀ i (h : i < (planChunks objectSize chunkSize).length),
        (planChunks objectSize chunkSize)[i].index = i) ∧
    (∀ h : 0 < (planChunks objectSize chunkSize).length,
        (planChunks objectSize chunkSize)[0].rangeStart = 0) ∧
    (∀ h : planChunks objectSize chunkSize ≠ [],
        ((planChunks objectSize chunkSize).getLast h).rangeEnd = objectSize - 1) ∧
    (∀ i (h : i < (planChunks objectSize chunkSize).length)
        (h2 : i + 1 < (planChunks objectSize chunkSize).length),
        (planChunks objectSize chunkSize)[i + 1].rangeStart =
          (planChunks objectSize chunkSize)[i].rangeEnd + 1) ∧
    (∀ c ∈ planChunks objectSize chunkSize, 1 ≤ c.size ∧ c.size ≤ chunkSize) ∧
    (∀ i (h : i < (planChunks objectSize chunkSize).length),
        i + 1 < (planChunks objectSize chunkSize).length →
        (planChunks objectSize chunkSize)[i].size = chunkSize) ∧
    sumSizes (planChunks objectSize chunkSize) = objectSize ∧
    (objectSize = 0 → planChunks objectSize chunkSize = []) ∧
    planChunks 10 3 = [⟨0, 0, 2, 3⟩, ⟨1, 3, 5, 3⟩, ⟨2, 6, 8, 3⟩, ⟨3, 9, 9, 1⟩] := by
  have hok := chunksOK_planChunksAux objectSize chunkSize hcs 0 0
  refine ⟨?_, ?_, ?_, ?_, ?_, ?_, ?_, ?_, planChunks_ten_three⟩
  · intro i h
    simpa using chunksOK_index objectSize chunkSize _ 0 0 hok i h
  · intro h
    exact chunksOK_head objectSize chunkSize _ 0 0 hok h
  · intro h
    exact chunksOK_last objectSize chunkSize _ 0 0 hok h
  · intro i h h2
    exact chunksOK_chain objectSize chunkSize _ 0 0 hok i h h2
  · intro c hc
    exact chunksOK_sizes objectSize chunkSize hcs _ 0 0 hok c hc
  · intro i h h2
    exact chunksOK_nonfinal_size objectSize chunkSize _ 0 0 hok i h h2
  · have := chunksOK_sum objectSize chunkSize hcs _ 0 0 hok
    rw [planChunks]
    omega
  · intro h
    subst h
    exact planChunks_zero chunkSize

/-- Witness for `planChunks_partition` at the concrete input `(10, 3)`. -/
theorem planChunks_partition_witness :
    sumSizes (planChunks 10 3) = 10 ∧
    planChunks 10 3 = [⟨0, 0, 2, 3⟩, ⟨1, 3, 5, 3⟩, ⟨2, 6, 8, 3⟩, ⟨3, 9, 9, 1⟩] := by
  have h := planChunks_partition 10 3 (by norm_num) (by norm_num)
  exact ⟨h.2.2.2.2.2.2.1, h.2.2.2.2.2.2.2.2⟩

/-- C9: the `planChunks` loop terminates for every `objectSize ≥ 0` under the
precondition `chunkSize > 0` (some finite fuel makes the raw loop produce
exactly the plan), and without that precondition (`chunkSize ≤ 0`) the raw
loop never terminates for any `objectSize > 0` (no amount of fuel suffices). -/
theorem planChunks_termination (objectSize chunkSize : Int) :
    (0 < chunkSize →
      ∃ fuel, planChunksFuel fuel objectSize chunkSize 0 0 =
        some (planChunks objectSize chunkSize)) ∧
    (chunkSize ≤ 0 → 0 < objectSize →
      ∀ fuel, planChunksFuel fuel objectSize chunkSize 0 0 = none) := by
  constructor
  · intro hcs
    exact ⟨objectSize.toNat + 1,
      planChunksFuel_some objectSize chunkSize hcs _ 0 0 (by omega)⟩
  · intro hcs hos fuel
    exact planChunksFuel_none objectSize chunkSize hcs fuel 0 0 (by omega)

/-- Witness for `planChunks_termination`: at `(10, 3)` the loop terminates;
at `(10, 0)` it runs forever (fuel 100 still yields no result). -/
theorem planChunks_termination_witness :
    (∃ fuel, planChunksFuel fuel 10 3 0 0 = some (planChunks 10 3)) ∧
    planChunksFuel 100 10 0 0 0 = none :=
  ⟨(planChunks_termination 10 3).1 (by norm_num),
   (planChunks_termination 10 0).2 (by norm_num) (by norm_num) 100⟩

/-! ## Fetch operation (`downloadChunk`, download.go) -/

/-- Error taxonomy of the fetch path, mirroring the wrapped errors the Go code
creates: a failed `GetObject` call ("GetObject chunk %d"), a failed
capture-mode body read ("reading chunk %d body"), or a failed discard-mode
drain ("draining chunk %d body"). -/
inductive GoErr where
  | getObjectErr (index : Nat)
  | chunkReadErr (index : Nat)
  | chunkDrainErr (index : Nat)
deriving Repr, DecidableEq

/-- `ChunkResult` holds the outcome of one chunk download.  Wall-clock timing
fields (`StartTime`, `TTFB`) are measurement side channels no claim depends
on and are omitted; `ElapsedTotal` is kept (in nanoseconds) because the
statistics engine consumes it.  Go zero values: `size = 0`,
`elapsedTotal = 0`, `err = none`. -/
structure ChunkResult where
  index : Nat
  size : Int
  elapsedTotal : Int
  err : Option GoErr
deriving Repr, DecidableEq

instance : Inhabited ChunkResult := ⟨⟨0, 0, 0, none⟩⟩

/-- The response body stream as seen by the fetch operation: it yields `avail`
bytes and then either ends cleanly (EOF, `failAtEnd = false`) or fails with a
transport error (`failAtEnd = true`). -/
structure BodyStream where
  avail : Nat
  failAtEnd : Bool
deriving Repr, DecidableEq

/-- The error outcomes of Go's `io.ReadFull`: `nil` (modelled `none`),
`io.EOF` (zero bytes read before a clean end), `io.ErrUnexpectedEOF`
(a partial read ending in a clean end), or the underlying transport error. -/
inductive ReadFullErr where
  | eof
  | unexpectedEOF
  | transport
deriving Repr, DecidableEq

/-- `io.ReadFull(body, buf)` with `want = len(buf)`: reads
`min stream.avail want` bytes; returns no error iff the buffer was filled. -/
def readFull (stream : BodyStream) (want : Nat) : Nat × Option ReadFullErr :=
  (min stream.avail want,
    if want ≤ stream.avail then none
    else if stream.failAtEnd then some .transport
    else if stream.avail = 0 then some .eof
    else some .unexpectedEOF)

/-- `io.Copy(io.Discard, body)`: drains the whole stream; a clean EOF is not
an error, a transport failure is. -/
def ioCopy (stream : BodyStream) : Nat × Option ReadFullErr :=
  (stream.avail, if stream.failAtEnd then some .transport else none)

/-- `downloadChunk`: one ranged `GetObject` plus body consumption.
`capture` selects capture mode (Go: `outBufs != nil`); `resp` is the outcome
of the `GetObject` call; `elapsed` is the measured total elapsed time of the
success path (a clock input).  Returns the `ChunkResult` together with the
length of the buffer slice stored into `outBufs[chunk.index]` (Go:
`outBufs[chunk.Index] = buf[:n]`; `none` when no write occurs).

Capture mode runs `io.ReadFull` into a buffer of `chunk.size` bytes and fails
only when the read error is neither `nil` nor `io.ErrUnexpectedEOF`
(Go: `if err != nil && err != io.ErrUnexpectedEOF`).  Discard mode runs
`io.Copy` and fails on any error.  Error-path literals leave `Size` and
`ElapsedTotal` at their zero values, as in the source. -/
def downloadChunk (chunk : ChunkSpec) (capture : Bool) (resp : Except Unit BodyStream)
    (elapsed : Int) : ChunkResult × Option Nat :=
  match resp with
  | .error _ => (⟨chunk.index, 0, 0, some (.getObjectErr chunk.index)⟩, none)
  | .ok stream =>
    if capture then
      let r := readFull stream chunk.size.toNat
      if r.2 ≠ none ∧ r.2 ≠ some .unexpectedEOF then
        (⟨chunk.index, 0, 0, some (.chunkReadErr chunk.index)⟩, none)
      else
        (⟨chunk.index, (r.1 : Int), elapsed, none⟩, some r.1)
    else
      let r := ioCopy stream
      if r.2 ≠ none then
        (⟨chunk.index, 0, 0, some (.chunkDrainErr chunk.index)⟩, none)
      else
        (⟨chunk.index, (r.1 : Int), elapsed, none⟩, none)

/-- C2 (amended): in capture mode a `ChunkReadError` is produced only when the
stream ends short of `range.size` with either a transport failure or zero
bytes delivered (`io.EOF`); a short read of at least one byte ending in a
clean end-of-stream (`io.ErrUnexpectedEOF`) is tolerated: the outcome is
successful, its `size` is the number of bytes actually read, and the
truncated partial buffer of exactly those bytes is stored for the caller. -/
theorem downloadChunk_capture_full (chunk : ChunkSpec) (stream : BodyStream)
    (elapsed : Int) (h1 : chunk.size.toNat ≤ stream.avail) :
    downloadChunk chunk true (.ok stream) elapsed =
      (⟨chunk.index, (chunk.size.toNat : Int), elapsed, none⟩, some chunk.size.toNat) := by
  simp [downloadChunk, readFull, h1, min_eq_right h1]

theorem downloadChunk_capture_transport (chunk : ChunkSpec) (stream : BodyStream)
    (elapsed : Int) (h1 : ¬ chunk.size.toNat ≤ stream.avail)
    (h2 : stream.failAtEnd = true) :
    downloadChunk chunk true (.ok stream) elapsed =
      (⟨chunk.index, 0, 0, some (.chunkReadErr chunk.index)⟩, none) := by
  simp [downloadChunk, readFull, h1, h2]

theorem downloadChunk_capture_eof (chunk : ChunkSpec) (stream : BodyStream)
    (elapsed : Int) (h1 : ¬ chunk.size.toNat ≤ stream.avail)
    (h2 : stream.failAtEnd = false) (h3 : stream.avail = 0) :
    downloadChunk chunk true (.ok stream) elapsed =
      (⟨chunk.index, 0, 0, some (.chunkReadErr chunk.index)⟩, none) := by
  have h4 : ¬ chunk.size.toNat ≤ 0 := by omega
  simp [downloadChunk, readFull, h2, h3, h4]

theorem downloadChunk_capture_short (chunk : ChunkSpec) (stream : BodyStream)
    (elapsed : Int) (h1 : ¬ chunk.size.toNat ≤ stream.avail)
    (h2 : stream.failAtEnd = false) (h3 : stream.avail ≠ 0) :
    downloadChunk chunk true (.ok stream) elapsed =
      (⟨chunk.index, (stream.avail : Int), elapsed, none⟩, some stream.avail) := by
  simp [downloadChunk, readFull, h1, h2, h3,
    min_eq_left (by omega : stream.avail ≤ chunk.size.toNat)]

theorem downloadChunk_capture_spec (chunk : ChunkSpec) (stream : BodyStream)
    (elapsed : Int) (hsz : 0 < chunk.size) :
    ((downloadChunk chunk true (.ok stream) elapsed).1.err.isSome ↔
      (stream.avail < chunk.size.toNat ∧ (stream.failAtEnd = true ∨ stream.avail = 0))) ∧
    ((downloadChunk chunk true (.ok stream) elapsed).1.err.isSome →
      (downloadChunk chunk true (.ok stream) elapsed).1.err =
        some (.chunkReadErr chunk.index) ∧
      (downloadChunk chunk true (.ok stream) elapsed).2 = none) ∧
    (0 < stream.avail → stream.avail < chunk.size.toNat → stream.failAtEnd = false →
      (downloadChunk chunk true (.ok stream) elapsed).1 =
        ⟨chunk.index, (stream.avail : Int), elapsed, none⟩ ∧
      (downloadChunk chunk true (.ok stream) elapsed).2 = some stream.avail) := by
  by_cases h1 : chunk.size.toNat ≤ stream.avail
  · rw [downloadChunk_capture_full chunk stream elapsed h1]
    refine ⟨?_, fun h => Bool.noConfusion h, fun _ hlt _ => by omega⟩
    exact iff_of_false (fun h => Bool.noConfusion h) (fun h => by omega)
  · by_cases h2 : stream.failAtEnd
    · rw [downloadChunk_capture_transport chunk stream elapsed h1 h2]
      refine ⟨iff_of_true rfl ⟨by omega, Or.inl h2⟩, fun _ => ⟨rfl, rfl⟩, ?_⟩
      intro _ _ hf
      rw [h2] at hf
      exact Bool.noConfusion hf
    · have h2' : stream.failAtEnd = false := by simpa using h2
      by_cases h3 : stream.avail = 0
      · rw [downloadChunk_capture_eof chunk stream elapsed h1 h2' h3]
        exact ⟨iff_of_true rfl ⟨by omega, Or.inr h3⟩, fun _ => ⟨rfl, rfl⟩,
          fun hpos _ _ => by omega⟩
      · rw [downloadChunk_capture_short chunk stream elapsed h1 h2' h3]
        refine ⟨?_, fun h => Bool.noConfusion h, fun _ _ _ => ⟨rfl, rfl⟩⟩
        refine iff_of_false (fun h => Bool.noConfusion h) ?_
        rintro ⟨_, hb | hc⟩
        · rw [h2'] at hb
          exact Bool.noConfusion hb
        · exact h3 hc

/-- Witness for `downloadChunk_capture_spec`: a chunk of planned size 3 whose
stream delivers only 2 bytes then ends cleanly is *not* an error: the outcome
is successful with `size = 2` and the 2-byte partial buffer is exposed. -/
theorem downloadChunk_capture_spec_witness :
    (downloadChunk ⟨0, 0, 2, 3⟩ true (.ok ⟨2, false⟩) 7).1 = ⟨0, 2, 7, none⟩ ∧
    (downloadChunk ⟨0, 0, 2, 3⟩ true (.ok ⟨2, false⟩) 7).2 = some 2 :=
  (downloadChunk_capture_spec ⟨0, 0, 2, 3⟩ ⟨2, false⟩ 7 (by norm_num)).2.2
    (by norm_num) (by norm_num) rfl

/-- Counterexample to C2 as stated: with planned range size 3 and a response
stream that ends cleanly after only 2 bytes (a short read), capture-mode
`downloadChunk` returns *no* error and exposes the 2-byte partial buffer,
contradicting "any short read that is not a clean end-of-stream exactly at
range.size is an error" and "no partial buffer is exposed to the caller". -/
theorem downloadChunk_short_read_cex :
    (2 : Nat) < (ChunkSpec.mk 0 0 2 3).size.toNat ∧
    (downloadChunk ⟨0, 0, 2, 3⟩ true (.ok ⟨2, false⟩) 7).1.err = none ∧
    (downloadChunk ⟨0, 0, 2, 3⟩ true (.ok ⟨2, false⟩) 7).2 = some 2 := by
  refine ⟨by norm_num, ?_, ?_⟩ <;> simp [downloadChunk, readFull]

/-- C10: in discard mode `downloadChunk` performs no length validation: if the
body stream drains without a transport error the outcome is successful and
its `size` is the number of bytes actually read — whatever that count is,
equal to the planned range size or not; a transport failure while draining is
the only discard-mode error. -/
theorem downloadChunk_discard_spec (chunk : ChunkSpec) (stream : BodyStream)
    (elapsed : Int) :
    (stream.failAtEnd = false →
      (downloadChunk chunk false (.ok stream) elapsed).1 =
        ⟨chunk.index, (stream.avail : Int), elapsed, none⟩) ∧
    (stream.failAtEnd = true →
      (downloadChunk chunk false (.ok stream) elapsed).1 =
        ⟨chunk.index, 0, 0, some (.chunkDrainErr chunk.index)⟩) := by
  constructor <;> intro h <;> simp [downloadChunk, ioCopy, h]

/-- Witness for `downloadChunk_discard_spec`: a clean 2-byte stream against a
3-byte planned range succeeds in discard mode with `size = 2`. -/
theorem downloadChunk_discard_spec_witness :
    (downloadChunk ⟨0, 0, 2, 3⟩ false (.ok ⟨2, false⟩) 7).1 = ⟨0, 2, 7, none⟩ ∧
    (downloadChunk ⟨0, 0, 2, 3⟩ false (.ok ⟨2, true⟩) 7).1 =
      ⟨0, 0, 0, some (.chunkDrainErr 0)⟩ :=
  ⟨(downloadChunk_discard_spec ⟨0, 0, 2, 3⟩ ⟨2, false⟩ 7).1 rfl,
   (downloadChunk_discard_spec ⟨0, 0, 2, 3⟩ ⟨2, true⟩ 7).2 rfl⟩

/-! ## Download dispatcher (`downloadObject`, download.go) -/

/-- `DownloadResult` aggregates all chunk results for a single run.
`TotalTime` is `time.Since(overallStart)`, a clock input; the dispatch-level
`TTFB` field (first-worker-to-finish time) is a clock side channel no claim
depends on and is omitted. -/
structure DownloadResult where
  chunks : List ChunkResult
  totalTime : Int
deriving Repr, DecidableEq

/-- The worker-count computation of `downloadObject`:
`workers := concurrency; if workers > len(chunks) { workers = len(chunks) }`. -/
def workerCount (concurrency numChunks : Nat) : Nat :=
  if concurrency > numChunks then numChunks else concurrency

/-- The index-addressed result table: starting from a table of `len(chunks)`
zero-value `ChunkResult`s (`results := make([]ChunkResult, len(chunks))`),
each chunk's outcome is stored at its own index
(`results[chunk.Index] = res`).  Each table slot has exactly one writer, so
the concurrent fill is equivalent to this sequential left fold over the job
queue. -/
def resultsTable (chunks : List ChunkSpec) (fetch : ChunkSpec → ChunkResult) :
    List ChunkResult :=
  chunks.foldl (fun tbl c => tbl.set c.index (fetch c))
    (List.replicate chunks.length default)

/-- `downloadObject`: fill the result table (all jobs pre-loaded in a closed
queue, workers join before the scan), then scan the table in index order for
the first outcome carrying an error; on an error return the empty
`DownloadResult` and that error, otherwise the full table and no error. -/
def downloadObject (chunks : List ChunkSpec) (fetch : ChunkSpec → ChunkResult)
    (totalTime : Int) : DownloadResult × Option GoErr :=
  let results := resultsTable chunks fetch
  match results.find? (fun r => r.err.isSome) with
  | some r => (⟨[], 0⟩, r.err)
  | none => (⟨results, totalTime⟩, none)

theorem foldl_set_getElem? (f : ChunkSpec → ChunkResult) :
    ∀ (l : List ChunkSpec) (s : Nat) (t : List ChunkResult),
      (∀ i (h : i < l.length), l[i].index = s + i) →
      s + l.length ≤ t.length →
      ∀ j, (l.foldl (fun tbl c => tbl.set c.index (f c)) t)[j]? =
        if s ≤ j ∧ j < s + l.length then (l.map f)[j - s]? else t[j]? := by
  intro l
  induction l with
  | nil =>
    intro s t hc hlen j
    simp only [List.foldl_nil, List.length_nil, Nat.add_zero, List.map_nil]
    rw [if_neg (by omega)]
  | cons c rest ih =>
    intro s t hc hlen j
    have hcs : c.index = s := by simpa using hc 0 (by simp)
    simp only [List.foldl_cons, hcs]
    have hc' : ∀ i (h : i < rest.length), rest[i].index = (s + 1) + i := by
      intro i h
      have := hc (i + 1) (by simpa using h)
      simpa [Nat.add_assoc, Nat.add_comm 1 i] using this
    have hlen' : (s + 1) + rest.length ≤ (t.set s (f c)).length := by
      simp only [List.length_set]
      simp only [List.length_cons] at hlen
      omega
    rw [ih (s + 1) (t.set s (f c)) hc' hlen' j]
    by_cases hj1 : j < s
    · rw [if_neg (by omega), if_neg (by omega), List.getElem?_set_ne (by omega)]
    · by_cases hj2 : j = s
      · subst hj2
        rw [if_neg (by omega), if_pos (by simp only [List.length_cons]; omega),
          List.getElem?_set_self (by
            simp only [List.length_cons] at hlen; omega)]
        simp
      · by_cases hj3 : j < s + 1 + rest.length
        · rw [if_pos (by omega), if_pos (by simp only [List.length_cons]; omega)]
          have : j - s = (j - (s + 1)) + 1 := by omega
          rw [this]
          simp
        · rw [if_neg (by omega),
            if_neg (by simp only [List.length_cons]; omega),
            List.getElem?_set_ne (by omega)]

/-- Under the dispatcher contract that chunk `i` of the plan carries index
`i` (which `planChunks` guarantees), the index-addressed table fill is the
map of the fetch over the plan. -/
theorem resultsTable_eq_map (chunks : List ChunkSpec) (fetch : ChunkSpec → ChunkResult)
    (hidx : ∀ i (h : i < chunks.length), chunks[i].index = i) :
    resultsTable chunks fetch = chunks.map fetch := by
  apply List.ext_getElem?
  intro j
  rw [resultsTable, foldl_set_getElem? fetch chunks 0 _ (by simpa using hidx)
    (by simp)]
  by_cases hj : j < chunks.length
  · rw [if_pos (by omega)]
    simp
  · rw [if_neg (by omega)]
    rw [List.getElem?_eq_none (by simpa using hj),
      List.getElem?_eq_none (by simp; omega)]

theorem find?_first (p : ChunkResult → Bool) :
    ∀ (l : List ChunkResult), (∃ x ∈ l, p x) →
      ∃ j, ∃ hj : j < l.length, p l[j] ∧
        (∀ k, k < j → ∀ hk : k < l.length, p l[k] = false) ∧
        l.find? p = some l[j] := by
  intro l
  induction l with
  | nil => simp
  | cons a l ih =>
    intro hex
    by_cases hpa : p a
    · refine ⟨0, by simp, by simpa using hpa, fun k hk => by omega, ?_⟩
      simp [List.find?_cons, hpa]
    · have hex' : ∃ x ∈ l, p x := by
        rcases hex with ⟨x, hx, hpx⟩
        rcases List.mem_cons.mp hx with h | h
        · exact absurd (h ▸ hpx) (by simpa using hpa)
        · exact ⟨x, h, hpx⟩
      obtain ⟨j, hj, hp1, hp2, hp3⟩ := ih hex'
      refine ⟨j + 1, by simpa using hj, by simpa using hp1, ?_, ?_⟩
      · intro k hk hkl
        match k with
        | 0 => simpa using hpa
        | k + 1 =>
          have := hp2 k (by omega) (by simpa using hkl)
          simpa using this
      · have hpa' : p a = false := by simpa using hpa
        rw [List.find?_cons, hpa']
        simpa using hp3

/-! ## Run statistics engine (`computeStats`, stats file) -/

/-- Go's conversion of a `float64` to an integer type: truncation toward
zero. -/
def goTrunc (q : ℚ) : Int := if 0 ≤ q then ⌊q⌋ else ⌈q⌉

theorem goTrunc_intCast (k : Int) : goTrunc (k : ℚ) = k := by
  unfold goTrunc
  split <;> simp

/-- `LatencyStats` (durations in nanosecond ticks, Go `time.Duration`). -/
structure LatencyStats where
  min : Int
  max : Int
  mean : Int
  p50 : Int
  p95 : Int
  p99 : Int
deriving Repr, DecidableEq

/-- `RunSummary` for a single run.  The `TTFB` field is a clock pass-through
no claim depends on and is omitted. -/
structure RunSummary where
  runNumber : Nat
  objectSize : Int
  totalBytes : Int
  chunkCount : Nat
  chunkSize : Int
  concurrency : Nat
  totalTime : Int
  throughputMB : ℚ
  throughputGB : ℚ
  chunkLatency : LatencyStats
deriving Repr, DecidableEq

/-- The per-chunk elapsed values as floats
(`durations = append(durations, float64(c.ElapsedTotal))`). -/
def rawDurations (chunks : List ChunkResult) : List ℚ :=
  chunks.map (fun c => ((c.elapsedTotal : ℚ)))

/-- The per-chunk elapsed values sorted ascending
(`sort.Float64s(durations)`). -/
def sortedDurations (chunks : List ChunkResult) : List ℚ :=
  List.mergeSort (rawDurations chunks)

/-- The percentile closure in `computeStats`: returns `0` for an empty set,
otherwise selects the nearest-rank index
`int(math.Ceil(p/100 * n)) - 1` clamped to `[0, n-1]` in the
ascending-sorted list. -/
def percentile (durations : List ℚ) (p : ℚ) : Int :=
  let n := durations.length
  if n = 0 then 0
  else
    let idx : Int := ⌈p / 100 * (n : ℚ)⌉ - 1
    let idx := if idx < 0 then 0 else idx
    let idx := if idx ≥ (n : Int) then (n : Int) - 1 else idx
    goTrunc (durations.getD idx.toNat 0)

/-- `computeStats` builds a `RunSummary` from a completed `DownloadResult`.
(`cfg.ChunkSize` is passed as `chunkSize`.) -/
def computeStats (result : DownloadResult) (chunkSize objectSize : Int)
    (runNumber concurrency : Nat) : RunSummary :=
  let totalBytes : Int := (result.chunks.map ChunkResult.size).sum
  let durations := sortedDurations result.chunks
  let n := durations.length
  let sum : ℚ := durations.foldl (· + ·) 0
  let minD : Int := if 0 < n then goTrunc (durations.getD 0 0) else 0
  let maxD : Int := if 0 < n then goTrunc (durations.getD (n - 1) 0) else 0
  let meanD : Int := if 0 < n then goTrunc (sum / (n : ℚ)) else 0
  let elapsed : ℚ := (result.totalTime : ℚ) / 1000000000
  let throughputMB : ℚ := if 0 < elapsed then (totalBytes : ℚ) / 2 ^ 20 / elapsed else 0
  let throughputGB : ℚ := if 0 < elapsed then (totalBytes : ℚ) / 2 ^ 30 / elapsed else 0
  { runNumber := runNumber
    objectSize := objectSize
    totalBytes := totalBytes
    chunkCount := result.chunks.length
    chunkSize := chunkSize
    concurrency := concurrency
    totalTime := result.totalTime
    throughputMB := throughputMB
    throughputGB := throughputGB
    chunkLatency :=
      { min := minD
        max := maxD
        mean := meanD
        p50 := percentile durations 50
        p95 := percentile durations 95
        p99 := percentile durations 99 } }

theorem foldl_add_eq_sum (l : List ℚ) : ∀ a : ℚ, l.foldl (· + ·) a = a + l.sum := by
  induction l with
  | nil => intro a; simp
  | cons x l ih =>
    intro a
    rw [List.foldl_cons, ih (a + x), List.sum_cons]
    ring

/-- C8: `computeStats` sets total bytes to the sum of `outcome.size` over all
outcomes, and sets throughput to `totalBytes / totalElapsed` divided by
`2^20` (MB/s) and `2^30` (GB/s) respectively — with `totalElapsed` taken in
seconds (`Duration.Seconds`, i.e. ticks over `10^9`) — defined as `0`
whenever `totalElapsed ≤ 0`. -/
theorem computeStats_throughput (result : DownloadResult) (chunkSize objectSize : Int)
    (runNumber concurrency : Nat) :
    (computeStats result chunkSize objectSize runNumber concurrency).totalBytes =
      (result.chunks.map ChunkResult.size).sum ∧
    (result.totalTime ≤ 0 →
      (computeStats result chunkSize objectSize runNumber concurrency).throughputMB = 0 ∧
      (computeStats result chunkSize objectSize runNumber concurrency).throughputGB = 0) ∧
    (0 < result.totalTime →
      (computeStats result chunkSize objectSize runNumber concurrency).throughputMB =
        ((result.chunks.map ChunkResult.size).sum : ℚ) / 2 ^ 20 /
          ((result.totalTime : ℚ) / 1000000000) ∧
      (computeStats result chunkSize objectSize runNumber concurrency).throughputGB =
        ((result.chunks.map ChunkResult.size).sum : ℚ) / 2 ^ 30 /
          ((result.totalTime : ℚ) / 1000000000)) := by
  have hsec : ∀ t : Int, (0 < (t : ℚ) / 1000000000) ↔ 0 < t := by
    intro t
    rw [div_pos_iff]
    constructor
    · rintro (⟨h, _⟩ | ⟨_, h⟩)
      · exact_mod_cast h
      · norm_num at h
    · intro h
      exact Or.inl ⟨by exact_mod_cast h, by norm_num⟩
  refine ⟨rfl, ?_, ?_⟩
  · intro h
    have : ¬ (0 < ((result.totalTime : ℚ) / 1000000000)) := by
      rw [hsec]
      omega
    constructor <;> simp only [computeStats, if_neg this]
  · intro h
    have : 0 < ((result.totalTime : ℚ) / 1000000000) := (hsec _).mpr h
    constructor <;> simp only [computeStats, if_pos this]

/-- Witness for `computeStats_throughput`: one 4-byte chunk in 2 seconds
gives `4 / 2^20 / 2` MB/s. -/
theorem computeStats_throughput_witness :
    (computeStats ⟨[⟨0, 4, 10, none⟩], 2000000000⟩ 3 10 1 2).totalBytes = 4 ∧
    (computeStats ⟨[⟨0, 4, 10, none⟩], 2000000000⟩ 3 10 1 2).throughputMB =
      (4 : ℚ) / 2 ^ 20 / 2 := by
  have h := computeStats_throughput ⟨[⟨0, 4, 10, none⟩], 2000000000⟩ 3 10 1 2
  refine ⟨by rw [h.1]; norm_num, ?_⟩
  rw [(h.2.2 (by norm_num)).1]
  norm_num

/-! ## Per-run driver (`main`, main.go) -/

/-- One benchmark run as driven by `main` (main.go): dispatch, then on a
dispatch error abort via `log.Fatalf` *before* any summary is computed
(modelled as `none`); otherwise compute the run summary from the result. -/
def runOnce (chunks : List ChunkSpec) (fetch : ChunkSpec → ChunkResult)
    (totalTime chunkSize objectSize : Int) (runNumber concurrency : Nat) :
    Option RunSummary :=
  match downloadObject chunks fetch totalTime with
  | (_, some _) => none
  | (result, none) =>
      some (computeStats result chunkSize objectSize runNumber concurrency)

/-- C3: whenever at least one chunk outcome carries an error, the dispatcher
(after the full worker join) scans the result table in index order and
returns the error of the outcome with the smallest index, together with an
*empty* `DownloadResult` (no successful chunk data surfaced), and the
enclosing run produces no `RunSummary`.  Stated for any fetch oracle under
the dispatcher contract that chunk `i` carries index `i`. -/
theorem downloadObject_fail_fast (chunks : List ChunkSpec)
    (fetch : ChunkSpec → ChunkResult) (totalTime chunkSize objectSize : Int)
    (runNumber concurrency : Nat)
    (hidx : ∀ i (h : i < chunks.length), chunks[i].index = i)
    (herr : ∃ i, ∃ h : i < chunks.length, (fetch chunks[i]).err.isSome) :
    ∃ j, ∃ hj : j < chunks.length,
      (fetch chunks[j]).err.isSome ∧
      (∀ k, k < j → ∀ hk : k < chunks.length, (fetch chunks[k]).err = none) ∧
      downloadObject chunks fetch totalTime = (⟨[], 0⟩, (fetch chunks[j]).err) ∧
      runOnce chunks fetch totalTime chunkSize objectSize runNumber concurrency =
        none := by
  have htbl : resultsTable chunks fetch = chunks.map fetch :=
    resultsTable_eq_map chunks fetch hidx
  have hex : ∃ x ∈ chunks.map fetch, (fun r => r.err.isSome) x = true := by
    obtain ⟨i, hi, h⟩ := herr
    exact ⟨fetch chunks[i], List.mem_map_of_mem fetch (List.getElem_mem hi), h⟩
  obtain ⟨j, hj, hp, hfirst, hfind⟩ := find?_first (fun r => r.err.isSome)
    (chunks.map fetch) hex
  have hjc : j < chunks.length := by simpa using hj
  have hgetj : (chunks.map fetch)[j] = fetch chunks[j] := by
    simp
  refine ⟨j, hjc, by rw [← hgetj]; exact hp, ?_, ?_, ?_⟩
  · intro k hk hkc
    have hkm : k < (chunks.map fetch).length := by simpa using hkc
    have := hfirst k hk hkm
    have hgetk : (chunks.map fetch)[k] = fetch chunks[k] := by simp
    rw [hgetk] at this
    simpa using this
  · rw [downloadObject]
    rw [htbl, hfind, hgetj]
  · rw [runOnce]
    have : downloadObject chunks fetch totalTime = (⟨[], 0⟩, (fetch chunks[j]).err) := by
      rw [downloadObject, htbl, hfind, hgetj]
    rw [this]
    have hp' : (fetch chunks[j]).err.isSome := by rw [← hgetj]; exact hp
    obtain ⟨e, he⟩ := Option.isSome_iff_exists.mp hp'
    rw [he]

/-- Witness for `downloadObject_fail_fast` on a concrete two-chunk dispatch
in which both fetches fail: the dispatch error is the index-0 outcome's error
and no summary is produced. -/
theorem downloadObject_fail_fast_witness :
    downloadObject [⟨0, 0, 2, 3⟩, ⟨1, 3, 5, 3⟩]
        (fun c => ⟨c.index, 0, 0, some (.getObjectErr c.index)⟩) 9 =
      (⟨[], 0⟩, some (.getObjectErr 0)) ∧
    runOnce [⟨0, 0, 2, 3⟩, ⟨1, 3, 5, 3⟩]
        (fun c => ⟨c.index, 0, 0, some (.getObjectErr c.index)⟩) 9 3 6 1 2 = none := by
  have h := downloadObject_fail_fast [⟨0, 0, 2, 3⟩, ⟨1, 3, 5, 3⟩]
    (fun c => ⟨c.index, 0, 0, some (.getObjectErr c.index)⟩) 9 3 6 1 2
    (by
      intro i hi
      match i, hi with
      | 0, _ => rfl
      | 1, _ => rfl)
    ⟨0, by norm_num, rfl⟩
  obtain ⟨j, hj, hp, hfirst, hdl, hro⟩ := h
  have hj0 : j = 0 := by
    rcases Nat.eq_or_lt_of_le (Nat.zero_le j) with h0 | h0
    · omega
    · have := hfirst 0 h0 (by norm_num)
      simp at this
  subst hj0
  exact ⟨hdl, hro⟩

/-- C5: the worker count is `min(concurrency, N)`; a dispatch of zero
descriptors returns an immediate empty success; and after a successful
dispatch of `N` descriptors the result table has exactly `N` entries, each
outcome's index equal to its table position (hence all indices distinct).
Stated for any fetch oracle that preserves the chunk index (as
`downloadChunk` does) under the dispatcher contract that chunk `i` carries
index `i`. -/
theorem downloadObject_table_integrity (chunks : List ChunkSpec)
    (fetch : ChunkSpec → ChunkResult) (totalTime : Int) (concurrency : Nat)
    (hconc : 1 ≤ concurrency)
    (hidx : ∀ i (h : i < chunks.length), chunks[i].index = i)
    (hfidx : ∀ c, (fetch c).index = c.index) :
    workerCount concurrency chunks.length = min concurrency chunks.length ∧
    (chunks = [] → downloadObject chunks fetch totalTime = (⟨[], totalTime⟩, none)) ∧
    ((downloadObject chunks fetch totalTime).2 = none →
      (downloadObject chunks fetch totalTime).1.chunks.length = chunks.length ∧
      (∀ i (h : i < (downloadObject chunks fetch totalTime).1.chunks.length),
        ((downloadObject chunks fetch totalTime).1.chunks)[i].index = i)) := by
  have htbl : resultsTable chunks fetch = chunks.map fetch :=
    resultsTable_eq_map chunks fetch hidx
  refine ⟨?_, ?_, ?_⟩
  · rw [workerCount]
    split <;> omega
  · intro h
    subst h
    rfl
  · intro hok
    have hfind : (resultsTable chunks fetch).find? (fun r => r.err.isSome) = none := by
      by_contra hne
      obtain ⟨r, hr⟩ := Option.ne_none_iff_exists'.mp hne
      rw [downloadObject] at hok
      rw [hr] at hok
      simp at hok
      have := List.find?_some hr
      rw [hok] at this
      simp at this
    have hres : downloadObject chunks fetch totalTime =
        (⟨resultsTable chunks fetch, totalTime⟩, none) := by
      rw [downloadObject, hfind]
    rw [hres, htbl]
    refine ⟨by simp, ?_⟩
    intro i h
    have hi : i < chunks.length := by simpa using h
    have : (chunks.map fetch)[i] = fetch chunks[i] := by simp
    show (chunks.map fetch)[i].index = i
    rw [this, hfidx, hidx i hi]

/-- Witness for `downloadObject_table_integrity` on a concrete successful
two-chunk dispatch with concurrency 5 (clamped to 2 workers). -/
theorem downloadObject_table_integrity_witness :
    workerCount 5 ([⟨0, 0, 2, 3⟩, ⟨1, 3, 5, 3⟩] : List ChunkSpec).length =
      min 5 2 ∧
    (downloadObject [⟨0, 0, 2, 3⟩, ⟨1, 3, 5, 3⟩]
        (fun c => ⟨c.index, c.size, 5, none⟩) 9).1.chunks.length = 2 := by
  have h := downloadObject_table_integrity [⟨0, 0, 2, 3⟩, ⟨1, 3, 5, 3⟩]
    (fun c => ⟨c.index, c.size, 5, none⟩) 9 5 (by norm_num)
    (by
      intro i hi
      match i, hi with
      | 0, _ => rfl
      | 1, _ => rfl)
    (fun c => rfl)
  refine ⟨h.1, ?_⟩
  have := (h.2.2 (by decide)).1
  simpa using this

/-! ## Latency statistics (claim C4) -/

theorem getD_lt (l : List ℚ) (i : Nat) (d : ℚ) (h : i < l.length) :
    l.getD i d = l[i] := by
  rw [List.getD_eq_getElem?_getD, List.getElem?_eq_getElem h]
  rfl

theorem sorted_head_le (l : List ℚ) (hs : List.Sorted (· ≤ ·) l) :
    ∀ q ∈ l, l.getD 0 0 ≤ q := by
  match l with
  | [] => intro q hq; simp at hq
  | x :: rest =>
    intro q hq
    have h0 : (x :: rest).getD 0 0 = x := rfl
    rw [h0]
    rcases List.mem_cons.mp hq with h | h
    · exact h ▸ le_refl x
    · exact List.rel_of_sorted_cons hs q h

theorem sorted_le_last :
    ∀ (l : List ℚ), List.Sorted (· ≤ ·) l →
      ∀ q ∈ l, q ≤ l.getD (l.length - 1) 0 := by
  intro l
  induction l with
  | nil => intro _ q hq; simp at hq
  | cons x rest ih =>
    intro hs q hq
    match rest with
    | [] =>
      rcases List.mem_cons.mp hq with h | h
      · exact h ▸ le_refl x
      · simp at h
    | y :: rest' =>
      have hlast : (x :: y :: rest').getD ((x :: y :: rest').length - 1) 0 =
          (y :: rest').getD ((y :: rest').length - 1) 0 := by
        simp [List.getD_eq_getElem?_getD]
      rw [hlast]
      rcases List.mem_cons.mp hq with h | h
      · subst h
        have hmem : (y :: rest').getD ((y :: rest').length - 1) 0 ∈ (y :: rest') := by
          rw [getD_lt _ _ _ (by simp)]
          exact List.getElem_mem _
        exact List.rel_of_sorted_cons hs _ hmem
      · exact ih (List.Sorted.of_cons hs) q h

theorem sortedDurations_perm (chunks : List ChunkResult) :
    (rawDurations chunks).Perm (sortedDurations chunks) :=
  (List.mergeSort_perm _ _).symm

theorem sortedDurations_sorted (chunks : List ChunkResult) :
    List.Sorted (· ≤ ·) (sortedDurations chunks) :=
  List.sorted_mergeSort' _

theorem sortedDurations_length (chunks : List ChunkResult) :
    (sortedDurations chunks).length = chunks.length := by
  rw [← (sortedDurations_perm chunks).length_eq]
  simp [rawDurations]

/-- The `chunkLatency` block of `computeStats`, written out. -/
theorem computeStats_chunkLatency (result : DownloadResult) (chunkSize objectSize : Int)
    (runNumber concurrency : Nat) :
    (computeStats result chunkSize objectSize runNumber concurrency).chunkLatency =
      ⟨(if 0 < (sortedDurations result.chunks).length then
          goTrunc ((sortedDurations result.chunks).getD 0 0) else 0),
       (if 0 < (sortedDurations result.chunks).length then
          goTrunc ((sortedDurations result.chunks).getD
            ((sortedDurations result.chunks).length - 1) 0) else 0),
       (if 0 < (sortedDurations result.chunks).length then
          goTrunc (((sortedDurations result.chunks).foldl (· + ·) 0) /
            (((sortedDurations result.chunks).length : Nat) : ℚ)) else 0),
       percentile (sortedDurations result.chunks) 50,
       percentile (sortedDurations result.chunks) 95,
       percentile (sortedDurations result.chunks) 99⟩ := rfl

theorem percentile_singleton (x p : ℚ) (hp0 : 0 < p) (hp1 : p ≤ 100) :
    percentile [x] p = goTrunc x := by
  have hc : ⌈p / 100⌉ = 1 := by
    rw [Int.ceil_eq_iff]
    push_cast
    constructor
    · have := div_pos hp0 (show (0 : ℚ) < 100 by norm_num)
      linarith
    · exact (div_le_one (by norm_num)).mpr hp1
  simp [percentile, hc]

theorem percentile_p50_four (a b c d : ℚ) :
    percentile [a, b, c, d] 50 = goTrunc b := by
  have hc : ⌈(50 : ℚ) / 100 * (4 : ℚ)⌉ = 2 := by
    rw [Int.ceil_eq_iff]
    norm_num
  norm_num [percentile, hc]

theorem percentile_p95_four (a b c d : ℚ) :
    percentile [a, b, c, d] 95 = goTrunc d := by
  have hc : ⌈(19 : ℚ) / 5⌉ = 4 := by
    rw [Int.ceil_eq_iff]
    norm_num
  norm_num [percentile, hc]
  rfl

/-- Chunk results whose elapsed values are the four-element sample
`[300, 100, 400, 200]` (deliberately unsorted). -/
def sampleChunks4 : List ChunkResult :=
  [⟨0, 1, 300, none⟩, ⟨1, 1, 100, none⟩, ⟨2, 1, 400, none⟩, ⟨3, 1, 200, none⟩]

theorem sortedDurations_sample4 :
    sortedDurations sampleChunks4 = [100, 200, 300, 400] :=
  List.eq_of_perm_of_sorted
    ((List.mergeSort_perm _ _).trans (by decide))
    (List.sorted_mergeSort' _)
    (by decide)

/-- C4 (amended): `computeStats` derives its latency block from the
ascending sort of the multiset of per-chunk elapsed values (the sorted list
is a sorted permutation of the raw values); each percentile `p ∈ {50,95,99}`
is the nearest-rank selection `ceil(p/100·n)−1` clamped to `[0,n−1]` from
that sorted list (the `percentile` function); `min`/`max` are the sorted
extremes (bounds of, and members of, the multiset); the mean is the
arithmetic mean of the raw values *truncated toward zero to a whole
duration tick* (Go converts the `float64` mean back to an integer
`time.Duration`); for `n = 0` all latency fields are zero; for `n = 1`
every field equals the single value; and for the four-element multiset
`[300,100,400,200]` the p50 is `200` and the p95 is `400`. -/
theorem computeStats_latency_spec (result : DownloadResult) (chunkSize objectSize : Int)
    (runNumber concurrency : Nat) :
    (rawDurations result.chunks).Perm (sortedDurations result.chunks) ∧
    List.Sorted (· ≤ ·) (sortedDurations result.chunks) ∧
    (sortedDurations result.chunks).length = result.chunks.length ∧
    (computeStats result chunkSize objectSize runNumber concurrency).chunkLatency.p50 =
      percentile (sortedDurations result.chunks) 50 ∧
    (computeStats result chunkSize objectSize runNumber concurrency).chunkLatency.p95 =
      percentile (sortedDurations result.chunks) 95 ∧
    (computeStats result chunkSize objectSize runNumber concurrency).chunkLatency.p99 =
      percentile (sortedDurations result.chunks) 99 ∧
    (0 < result.chunks.length →
      (∀ q ∈ rawDurations result.chunks,
        (sortedDurations result.chunks).getD 0 0 ≤ q ∧
        q ≤ (sortedDurations result.chunks).getD (result.chunks.length - 1) 0) ∧
      (sortedDurations result.chunks).getD 0 0 ∈ rawDurations result.chunks ∧
      (sortedDurations result.chunks).getD (result.chunks.length - 1) 0 ∈
        rawDurations result.chunks ∧
      (computeStats result chunkSize objectSize runNumber concurrency).chunkLatency.min =
        goTrunc ((sortedDurations result.chunks).getD 0 0) ∧
      (computeStats result chunkSize objectSize runNumber concurrency).chunkLatency.max =
        goTrunc ((sortedDurations result.chunks).getD (result.chunks.length - 1) 0) ∧
      (computeStats result chunkSize objectSize runNumber concurrency).chunkLatency.mean =
        goTrunc ((rawDurations result.chunks).sum / (result.chunks.length : ℚ))) ∧
    (result.chunks.length = 0 →
      (computeStats result chunkSize objectSize runNumber concurrency).chunkLatency =
        ⟨0, 0, 0, 0, 0, 0⟩) ∧
    (∀ c : ChunkResult, result.chunks = [c] →
      (computeStats result chunkSize objectSize runNumber concurrency).chunkLatency =
        ⟨c.elapsedTotal, c.elapsedTotal, c.elapsedTotal, c.elapsedTotal,
          c.elapsedTotal, c.elapsedTotal⟩) ∧
    (computeStats ⟨sampleChunks4, 1⟩ 1 4 1 1).chunkLatency.p50 = 200 ∧
    (computeStats ⟨sampleChunks4, 1⟩ 1 4 1 1).chunkLatency.p95 = 400 := by
  have hperm := sortedDurations_perm result.chunks
  have hsort := sortedDurations_sorted result.chunks
  have hlen := sortedDurations_length result.chunks
  refine ⟨hperm, hsort, hlen, rfl, rfl, rfl, ?_, ?_, ?_, ?_, ?_⟩
  · intro hn
    have hn' : 0 < (sortedDurations result.chunks).length := by omega
    refine ⟨?_, ?_, ?_, ?_, ?_, ?_⟩
    · intro q hq
      have hq' : q ∈ sortedDurations result.chunks := hperm.mem_iff.mp hq
      refine ⟨sorted_head_le _ hsort q hq', ?_⟩
      have := sorted_le_last _ hsort q hq'
      rwa [hlen] at this
    · refine hperm.mem_iff.mpr ?_
      rw [getD_lt _ _ _ hn']
      exact List.getElem_mem _
    · refine hperm.mem_iff.mpr ?_
      rw [getD_lt _ _ _ (by omega)]
      exact List.getElem_mem _
    · rw [computeStats_chunkLatency]
      show (if 0 < (sortedDurations result.chunks).length then
          goTrunc ((sortedDurations result.chunks).getD 0 0) else 0) = _
      rw [if_pos hn']
    · rw [computeStats_chunkLatency]
      show (if 0 < (sortedDurations result.chunks).length then
          goTrunc ((sortedDurations result.chunks).getD
            ((sortedDurations result.chunks).length - 1) 0) else 0) = _
      rw [if_pos hn', hlen]
    · rw [computeStats_chunkLatency]
      show (if 0 < (sortedDurations result.chunks).length then
          goTrunc (((sortedDurations result.chunks).foldl (· + ·) 0) /
            (((sortedDurations result.chunks).length : Nat) : ℚ)) else 0) = _
      rw [if_pos hn', foldl_add_eq_sum, zero_add, ← hperm.sum_eq, hlen]
  · intro hn0
    have hraw : rawDurations result.chunks = [] := by
      rw [List.length_eq_zero.mp hn0]
      rfl
    have hd : sortedDurations result.chunks = [] := (hraw ▸ hperm).symm.eq_nil
    rw [computeStats_chunkLatency, hd]
    simp [percentile]
  · intro c hc
    have hraw : rawDurations result.chunks = [((c.elapsedTotal : ℚ))] := by
      rw [hc]
      rfl
    have hd : sortedDurations result.chunks = [((c.elapsedTotal : ℚ))] :=
      (List.singleton_perm.mp (hraw ▸ hperm)).symm
    rw [computeStats_chunkLatency, hd]
    rw [percentile_singleton _ 50 (by norm_num) (by norm_num),
      percentile_singleton _ 95 (by norm_num) (by norm_num),
      percentile_singleton _ 99 (by norm_num) (by norm_num)]
    norm_num [goTrunc_intCast, List.getD]
  · rw [computeStats_chunkLatency]
    show percentile (sortedDurations sampleChunks4) 50 = 200
    rw [sortedDurations_sample4, percentile_p50_four]
    norm_num [goTrunc]
  · rw [computeStats_chunkLatency]
    show percentile (sortedDurations sampleChunks4) 95 = 400
    rw [sortedDurations_sample4, percentile_p95_four]
    norm_num [goTrunc]

/-- Witness for `computeStats_latency_spec`: a single chunk with elapsed 7 ns
yields min = max = mean = p50 = p95 = p99 = 7. -/
theorem computeStats_latency_spec_witness :
    (computeStats ⟨[⟨0, 1, 7, none⟩], 1⟩ 1 1 1 1).chunkLatency =
      ⟨7, 7, 7, 7, 7, 7⟩ :=
  (computeStats_latency_spec ⟨[⟨0, 1, 7, none⟩], 1⟩ 1 1 1 1).2.2.2.2.2.2.2.2.1
    ⟨0, 1, 7, none⟩ rfl

/-- Chunk results with elapsed values `[1, 2]` (nanoseconds). -/
def sampleChunks2 : List ChunkResult := [⟨0, 1, 1, none⟩, ⟨1, 1, 2, none⟩]

theorem sortedDurations_sample2 : sortedDurations sampleChunks2 = [1, 2] :=
  List.eq_of_perm_of_sorted
    ((List.mergeSort_perm _ _).trans (by decide))
    (List.sorted_mergeSort' _)
    (by decide)

/-- Counterexample to C4 as stated: for elapsed values `[1, 2]` ns the mean
latency field is `1` (Go truncates the float mean back to an integer
`time.Duration`), while the arithmetic mean of the raw values is `3/2 ≠ 1`. -/
theorem computeStats_mean_cex :
    (computeStats ⟨sampleChunks2, 1⟩ 1 2 1 2).chunkLatency.mean = 1 ∧
    (rawDurations sampleChunks2).sum / (sampleChunks2.length : ℚ) = 3 / 2 ∧
    ((1 : ℚ) ≠ 3 / 2) := by
  have hf : ⌊(3 : ℚ) / 2⌋ = 1 := by
    rw [Int.floor_eq_iff]
    norm_num
  refine ⟨?_, by norm_num [rawDurations, sampleChunks2], by norm_num⟩
  rw [computeStats_chunkLatency]
  show (if 0 < (sortedDurations sampleChunks2).length then
      goTrunc (((sortedDurations sampleChunks2).foldl (· + ·) 0) /
        (((sortedDurations sampleChunks2).length : Nat) : ℚ)) else 0) = 1
  rw [sortedDurations_sample2]
  norm_num [goTrunc, hf]

/-! ## Aggregation engine (`computeAggregate`, stats file; claim C6) -/

structure AggregateSummary where
  runs : Nat
  minThroughputMB : ℚ
  maxThroughputMB : ℚ
  meanThroughputMB : ℚ
  minThroughputGB : ℚ
  maxThroughputGB : ℚ
  meanThroughputGB : ℚ
deriving Repr, DecidableEq

/-- `computeAggregate` folds min/max/sum of the per-run MB/s throughputs,
starting min and max from the first run's value and sum from `0`; the mean is
`sum / runCount`, and the GB/s fields are the MB/s fields divided by `1024`
(not recomputed from bytes). -/
def computeAggregate (summaries : List RunSummary) : AggregateSummary :=
  match summaries with
  | [] => ⟨0, 0, 0, 0, 0, 0, 0⟩
  | s0 :: _ =>
    let minMB := summaries.foldl
      (fun acc s => if s.throughputMB < acc then s.throughputMB else acc) s0.throughputMB
    let maxMB := summaries.foldl
      (fun acc s => if acc < s.throughputMB then s.throughputMB else acc) s0.throughputMB
    let sumMB := summaries.foldl (fun acc s => acc + s.throughputMB) 0
    let meanMB := sumMB / (summaries.length : ℚ)
    ⟨summaries.length, minMB, maxMB, meanMB, minMB / 1024, maxMB / 1024, meanMB / 1024⟩

theorem aggFoldMin_le_init :
    ∀ (l : List RunSummary) (a : ℚ),
      l.foldl (fun acc s => if s.throughputMB < acc then s.throughputMB else acc) a ≤ a := by
  intro l
  induction l with
  | nil => intro a; simp
  | cons x l ih =>
    intro a
    rw [List.foldl_cons]
    split
    · exact le_trans (ih _) (le_of_lt (by assumption))
    · exact ih a

theorem aggFoldMin_le_mem :
    ∀ (l : List RunSummary) (a : ℚ) (s : RunSummary), s ∈ l →
      l.foldl (fun acc s => if s.throughputMB < acc then s.throughputMB else acc) a ≤
        s.throughputMB := by
  intro l
  induction l with
  | nil => intro a s hs; simp at hs
  | cons x l ih =>
    intro a s hs
    rw [List.foldl_cons]
    rcases List.mem_cons.mp hs with h | h
    · subst h
      refine le_trans (aggFoldMin_le_init l _) ?_
      split
      · exact le_refl _
      · exact not_lt.mp (by assumption)
    · exact ih _ s h

theorem aggFoldMin_mem :
    ∀ (l : List RunSummary) (a : ℚ),
      l.foldl (fun acc s => if s.throughputMB < acc then s.throughputMB else acc) a = a ∨
      l.foldl (fun acc s => if s.throughputMB < acc then s.throughputMB else acc) a ∈
        l.map RunSummary.throughputMB := by
  intro l
  induction l with
  | nil => intro a; left; rfl
  | cons x l ih =>
    intro a
    rw [List.foldl_cons]
    split
    · rcases ih x.throughputMB with h | h
      · right; rw [h, List.map_cons]; exact List.mem_cons_self _ _
      · right; rw [List.map_cons]; exact List.mem_cons_of_mem _ h
    · rcases ih a with h | h
      · left; exact h
      · right; rw [List.map_cons]; exact List.mem_cons_of_mem _ h

theorem aggFoldMax_init_le :
    ∀ (l : List RunSummary) (a : ℚ),
      a ≤ l.foldl (fun acc s => if acc < s.throughputMB then s.throughputMB else acc) a := by
  intro l
  induction l with
  | nil => intro a; simp
  | cons x l ih =>
    intro a
    rw [List.foldl_cons]
    split
    · exact le_trans (le_of_lt (by assumption)) (ih _)
    · exact ih a

theorem aggFoldMax_mem_le :
    ∀ (l : List RunSummary) (a : ℚ) (s : RunSummary), s ∈ l →
      s.throughputMB ≤
        l.foldl (fun acc s => if acc < s.throughputMB then s.throughputMB else acc) a := by
  intro l
  induction l with
  | nil => intro a s hs; simp at hs
  | cons x l ih =>
    intro a s hs
    rw [List.foldl_cons]
    rcases List.mem_cons.mp hs with h | h
    · subst h
      refine le_trans ?_ (aggFoldMax_init_le l _)
      split
      · exact le_refl _
      · exact not_lt.mp (by assumption)
    · exact ih _ s h

theorem aggFoldMax_mem :
    ∀ (l : List RunSummary) (a : ℚ),
      l.foldl (fun acc s => if acc < s.throughputMB then s.throughputMB else acc) a = a ∨
      l.foldl (fun acc s => if acc < s.throughputMB then s.throughputMB else acc) a ∈
        l.map RunSummary.throughputMB := by
  intro l
  induction l with
  | nil => intro a; left; rfl
  | cons x l ih =>
    intro a
    rw [List.foldl_cons]
    split
    · rcases ih x.throughputMB with h | h
      · right; rw [h, List.map_cons]; exact List.mem_cons_self _ _
      · right; rw [List.map_cons]; exact List.mem_cons_of_mem _ h
    · rcases ih a with h | h
      · left; exact h
      · right; rw [List.map_cons]; exact List.mem_cons_of_mem _ h

theorem aggFoldSum :
    ∀ (l : List RunSummary) (a : ℚ),
      l.foldl (fun acc s => acc + s.throughputMB) a =
        a + (l.map RunSummary.throughputMB).sum := by
  intro l
  induction l with
  | nil => intro a; simp
  | cons x l ih =>
    intro a
    rw [List.foldl_cons, ih, List.map_cons, List.sum_cons]
    ring

theorem computeAggregate_cons (s0 : RunSummary) (rest : List RunSummary) :
    computeAggregate (s0 :: rest) =
      ⟨(s0 :: rest).length,
       (s0 :: rest).foldl
         (fun acc s => if s.throughputMB < acc then s.throughputMB else acc)
         s0.throughputMB,
       (s0 :: rest).foldl
         (fun acc s => if acc < s.throughputMB then s.throughputMB else acc)
         s0.throughputMB,
       ((s0 :: rest).foldl (fun acc s => acc + s.throughputMB) 0) /
         (((s0 :: rest).length : Nat) : ℚ),
       ((s0 :: rest).foldl
         (fun acc s => if s.throughputMB < acc then s.throughputMB else acc)
         s0.throughputMB) / 1024,
       ((s0 :: rest).foldl
         (fun acc s => if acc < s.throughputMB then s.throughputMB else acc)
         s0.throughputMB) / 1024,
       (((s0 :: rest).foldl (fun acc s => acc + s.throughputMB) 0) /
         (((s0 :: rest).length : Nat) : ℚ)) / 1024⟩ := rfl

/-- C6: for a non-empty run list, `computeAggregate` returns the minimum,
maximum and unweighted arithmetic mean of the runs' MB/s throughputs (the
min/max are lower/upper bounds of, and members of, the throughput multiset);
each GB/s field is the corresponding MB/s field divided by `1024`; and a
single run aggregates to `min = mean = max` equal to that run's
throughput. -/
theorem computeAggregate_spec (summaries : List RunSummary) (hne : summaries ≠ []) :
    (∀ s ∈ summaries,
      (computeAggregate summaries).minThroughputMB ≤ s.throughputMB ∧
      s.throughputMB ≤ (computeAggregate summaries).maxThroughputMB) ∧
    (computeAggregate summaries).minThroughputMB ∈
      summaries.map RunSummary.throughputMB ∧
    (computeAggregate summaries).maxThroughputMB ∈
      summaries.map RunSummary.throughputMB ∧
    (computeAggregate summaries).meanThroughputMB =
      (summaries.map RunSummary.throughputMB).sum / (summaries.length : ℚ) ∧
    (computeAggregate summaries).minThroughputGB =
      (computeAggregate summaries).minThroughputMB / 1024 ∧
    (computeAggregate summaries).maxThroughputGB =
      (computeAggregate summaries).maxThroughputMB / 1024 ∧
    (computeAggregate summaries).meanThroughputGB =
      (computeAggregate summaries).meanThroughputMB / 1024 ∧
    (computeAggregate summaries).runs = summaries.length ∧
    (∀ s : RunSummary, summaries = [s] →
      (computeAggregate summaries).minThroughputMB = s.throughputMB ∧
      (computeAggregate summaries).meanThroughputMB = s.throughputMB ∧
      (computeAggregate summaries).maxThroughputMB = s.throughputMB) := by
  match summaries, hne with
  | s0 :: rest, _ =>
    rw [computeAggregate_cons]
    refine ⟨?_, ?_, ?_, ?_, rfl, rfl, rfl, rfl, ?_⟩
    · intro s hs
      exact ⟨aggFoldMin_le_mem _ _ s hs, aggFoldMax_mem_le _ _ s hs⟩
    · rcases aggFoldMin_mem (s0 :: rest) s0.throughputMB with h | h
      · rw [h, List.map_cons]; exact List.mem_cons_self _ _
      · exact h
    · rcases aggFoldMax_mem (s0 :: rest) s0.throughputMB with h | h
      · rw [h, List.map_cons]; exact List.mem_cons_self _ _
      · exact h
    · rw [aggFoldSum, zero_add]
    · intro s hs
      rw [List.cons.injEq] at hs
      obtain ⟨h1, h2⟩ := hs
      subst h2
      subst h1
      refine ⟨?_, ?_, ?_⟩
      · show (if s0.throughputMB < s0.throughputMB then s0.throughputMB else s0.throughputMB) =
          s0.throughputMB
        split <;> rfl
      · show (0 + s0.throughputMB) / ((1 : Nat) : ℚ) = s0.throughputMB
        norm_num
      · show (if s0.throughputMB < s0.throughputMB then s0.throughputMB else s0.throughputMB) =
          s0.throughputMB
        split <;> rfl

/-- A concrete run with throughput 5 MB/s. -/
def sampleRun : RunSummary :=
  ⟨1, 10, 10, 1, 3, 2, 1000000000, 5, 5 / 1024, ⟨0, 0, 0, 0, 0, 0⟩⟩

/-- Witness for `computeAggregate_spec`: aggregating the single `sampleRun`
gives min = mean = max = 5 MB/s. -/
theorem computeAggregate_spec_witness :
    (computeAggregate [sampleRun]).minThroughputMB = 5 ∧
    (computeAggregate [sampleRun]).meanThroughputMB = 5 ∧
    (computeAggregate [sampleRun]).maxThroughputMB = 5 :=
  (computeAggregate_spec [sampleRun] (by simp)).2.2.2.2.2.2.2.2 sampleRun rfl

/-! ## Best-sweep selection (`printComparisonReport`, output.go; claim C7) -/

structure ConcurrencySweep where
  concurrency : Nat
  summaries : List RunSummary
  aggregate : AggregateSummary
deriving Repr, DecidableEq

/-- The scan loop of `printComparisonReport`:
`for i, sw := range sweeps { if sw.Aggregate.MeanThroughputMB > bestMean
{ bestMean = ...; bestIdx = i } }`, carrying the running `(bestMean, bestIdx)`
state and the current index `i`. -/
def bestSweepAux : List ConcurrencySweep → Nat → ℚ → Nat → ℚ × Nat
  | [], _, bestMean, bestIdx => (bestMean, bestIdx)
  | sw :: rest, i, bestMean, bestIdx =>
    if bestMean < sw.aggregate.meanThroughputMB then
      bestSweepAux rest (i + 1) sw.aggregate.meanThroughputMB i
    else
      bestSweepAux rest (i + 1) bestMean bestIdx

/-- The best-sweep index: the scan starts from `bestMean := 0.0` and
`bestIdx := 0`. -/
def bestSweepIdx (sweeps : List ConcurrencySweep) : Nat :=
  (bestSweepAux sweeps 0 0 0).2

theorem bestSweepAux_spec :
    ∀ (l : List ConcurrencySweep) (i : Nat) (m : ℚ) (b : Nat),
      (bestSweepAux l i m b = (m, b) ∧
        ∀ sw ∈ l, sw.aggregate.meanThroughputMB ≤ m) ∨
      (∃ j, ∃ hj : j < l.length,
        bestSweepAux l i m b = (l[j].aggregate.meanThroughputMB, i + j) ∧
        m < l[j].aggregate.meanThroughputMB ∧
        (∀ k, ∀ hk : k < l.length,
          l[k].aggregate.meanThroughputMB ≤ l[j].aggregate.meanThroughputMB) ∧
        (∀ k, k < j → ∀ hk : k < l.length,
          l[k].aggregate.meanThroughputMB < l[j].aggregate.meanThroughputMB)) := by
  intro l
  induction l with
  | nil => intro i m b; left; exact ⟨rfl, by simp⟩
  | cons sw rest ih =>
    intro i m b
    rw [bestSweepAux]
    by_cases hm : m < sw.aggregate.meanThroughputMB
    · rw [if_pos hm]
      rcases ih (i + 1) sw.aggregate.meanThroughputMB i with
        ⟨heq, hall⟩ | ⟨j, hj, heq, hlt, hmax, hfirst⟩
      · right
        refine ⟨0, by simp, ?_, by simpa using hm, ?_, ?_⟩
        · rw [heq, Prod.mk.injEq]
          exact ⟨by simp, by omega⟩
        · intro k hk
          match k with
          | 0 => simp
          | k + 1 =>
            have hk' : k < rest.length := by simpa using hk
            simpa using hall rest[k] (List.getElem_mem hk')
        · intro k hk
          omega
      · right
        refine ⟨j + 1, by simpa using hj, ?_, ?_, ?_, ?_⟩
        · rw [heq, Prod.mk.injEq]
          exact ⟨by simp, by omega⟩
        · exact lt_trans hm (by simpa using hlt)
        · intro k hk
          match k with
          | 0 => simpa using le_of_lt hlt
          | k + 1 =>
            have hk' : k < rest.length := by simpa using hk
            simpa using hmax k hk'
        · intro k hkj hk
          match k with
          | 0 => simpa using hlt
          | k + 1 =>
            have hk' : k < rest.length := by simpa using hk
            have hkj' : k < j := by omega
            simpa using hfirst k hkj' hk'
    · rw [if_neg hm]
      rcases ih (i + 1) m b with ⟨heq, hall⟩ | ⟨j, hj, heq, hlt, hmax, hfirst⟩
      · left
        refine ⟨heq, ?_⟩
        intro x hx
        rcases List.mem_cons.mp hx with h | h
        · exact h ▸ not_lt.mp hm
        · exact hall x h
      · right
        refine ⟨j + 1, by simpa using hj, ?_, by simpa using hlt, ?_, ?_⟩
        · rw [heq, Prod.mk.injEq]
          exact ⟨by simp, by omega⟩
        · intro k hk
          match k with
          | 0 => simpa using le_trans (not_lt.mp hm) (le_of_lt hlt)
          | k + 1 =>
            have hk' : k < rest.length := by simpa using hk
            simpa using hmax k hk'
        · intro k hkj hk
          match k with
          | 0 => simpa using lt_of_le_of_lt (not_lt.mp hm) hlt
          | k + 1 =>
            have hk' : k < rest.length := by simpa using hk
            have hkj' : k < j := by omega
            simpa using hfirst k hkj' hk'

/-- A sweep carrying only a mean MB/s throughput in its aggregate. -/
def mkSweep (conc : Nat) (m : ℚ) : ConcurrencySweep :=
  ⟨conc, [], ⟨0, 0, 0, m, 0, 0, 0⟩⟩

/-- C7 (amended): for a non-empty sweep list whose aggregate mean throughputs
are all nonnegative (always the case for real runs), the best-sweep scan
returns the first index attaining the greatest mean throughput — every mean
is at most the selected one, and every earlier mean is strictly below it
(strict `>` comparison in list order); for mean throughputs `[100, 250, 240]`
the best index is `1`.  The nonnegativity hypothesis is needed because the
scan starts from `bestMean = 0.0`, not from the first element. -/
theorem bestSweep_first_argmax (sweeps : List ConcurrencySweep) (hne : sweeps ≠ [])
    (hnn : ∀ sw ∈ sweeps, 0 ≤ sw.aggregate.meanThroughputMB) :
    (∃ hb : bestSweepIdx sweeps < sweeps.length,
      (∀ k, ∀ hk : k < sweeps.length,
        sweeps[k].aggregate.meanThroughputMB ≤
          sweeps[bestSweepIdx sweeps].aggregate.meanThroughputMB) ∧
      (∀ k, k < bestSweepIdx sweeps → ∀ hk : k < sweeps.length,
        sweeps[k].aggregate.meanThroughputMB <
          sweeps[bestSweepIdx sweeps].aggregate.meanThroughputMB)) ∧
    bestSweepIdx [mkSweep 4 100, mkSweep 8 250, mkSweep 16 240] = 1 := by
  refine ⟨?_, by decide⟩
  rcases bestSweepAux_spec sweeps 0 0 0 with
    ⟨heq, hall⟩ | ⟨j, hj, heq, hlt, hmax, hfirst⟩
  · have hb0 : bestSweepIdx sweeps = 0 := by rw [bestSweepIdx, heq]
    have hlen : 0 < sweeps.length := List.length_pos.mpr hne
    rw [hb0]
    refine ⟨hlen, ?_, ?_⟩
    · intro k hk
      have h1 : sweeps[k].aggregate.meanThroughputMB ≤ 0 :=
        hall _ (List.getElem_mem hk)
      have h2 : 0 ≤ sweeps[0].aggregate.meanThroughputMB :=
        hnn _ (List.getElem_mem hlen)
      linarith
    · intro k hk
      omega
  · have hb : bestSweepIdx sweeps = j := by
      rw [bestSweepIdx, heq]
      simp
    rw [hb]
    exact ⟨hj, hmax, hfirst⟩

/-- Witness for `bestSweep_first_argmax`: for mean throughputs
`[100, 250, 240]` at concurrencies `[4, 8, 16]` the best index is `1`. -/
theorem bestSweep_first_argmax_witness :
    bestSweepIdx [mkSweep 4 100, mkSweep 8 250, mkSweep 16 240] = 1 :=
  (bestSweep_first_argmax [mkSweep 4 100, mkSweep 8 250, mkSweep 16 240]
    (by simp)
    (by
      intro sw hsw
      rcases List.mem_cons.mp hsw with h | hsw
      · rw [h]; norm_num [mkSweep]
      rcases List.mem_cons.mp hsw with h | hsw
      · rw [h]; norm_num [mkSweep]
      rcases List.mem_cons.mp hsw with h | hsw
      · rw [h]; norm_num [mkSweep]
      · simp at hsw)).2

/-- Counterexample to C7 as stated: for the (physically impossible but
type-correct) mean throughputs `[-2, -1]`, the scan keeps its initial
`bestIdx = 0` because no mean exceeds the initial `bestMean = 0.0`, yet the
strictly greatest mean sits at index `1`. -/
theorem bestSweep_negative_cex :
    bestSweepIdx [mkSweep 4 (-2), mkSweep 8 (-1)] = 0 ∧
    (([mkSweep 4 (-2), mkSweep 8 (-1)] :
        List ConcurrencySweep)[0]).aggregate.meanThroughputMB <
      (([mkSweep 4 (-2), mkSweep 8 (-1)] :
        List ConcurrencySweep)[1]).aggregate.meanThroughputMB := by
  constructor <;> decide
